import Mathlib

/-!
Verification of the `nrop` ELF object model and chain abstraction.

The repository ships only the interface headers (`src/parsers/elf_type.h`
and the chain header); every operation below is therefore modelled from the
specification's description of its behaviour, over a shallow embedding in
which a byte region is a `List Nat` (each element a byte value `< 256`),
records are structures, and fallible operations return `Option`/`Except`.
C pointer identity for sections is rendered as the index of the section in
the Elf's ordered section sequence.
-/

set_option maxRecDepth 20000

deriving instance DecidableEq for Except

namespace Nrop

/-! ## Little-endian byte codec -/

/-- Read a little-endian natural number from a byte list. -/
def readLE : List Nat → Nat
  | [] => 0
  | b :: bs => b + 256 * readLE bs

/-- Write `n` as `k` little-endian bytes (truncating at `2 ^ (8 * k)`). -/
def writeLE : Nat → Nat → List Nat
  | 0, _ => []
  | k + 1, n => n % 256 :: writeLE k (n / 256)

/-- Read the `len`-byte little-endian field of `b` at byte offset `off`. -/
def field (b : List Nat) (off len : Nat) : Nat :=
  readLE ((b.drop off).take len)

/-! ## ELF records (64-bit little-endian, per the System V gABI layouts the
spec fixes: `Elf64_Ehdr` 64 bytes, `Elf64_Shdr` 64, `Elf64_Phdr` 56,
`Elf64_Sym` 24, `Elf64_Rela` 24) -/

/-- The ELF file header `Elf64_Ehdr`; `e_ident` holds the raw 16
identification bytes. -/
structure Elf64_Ehdr where
  e_ident : List Nat
  e_type : Nat
  e_machine : Nat
  e_version : Nat
  e_entry : Nat
  e_phoff : Nat
  e_shoff : Nat
  e_flags : Nat
  e_ehsize : Nat
  e_phentsize : Nat
  e_phnum : Nat
  e_shentsize : Nat
  e_shnum : Nat
  e_shstrndx : Nat
  deriving DecidableEq

/-- One section header `Elf64_Shdr`. -/
structure Elf64_Shdr where
  sh_name : Nat
  sh_type : Nat
  sh_flags : Nat
  sh_addr : Nat
  sh_offset : Nat
  sh_size : Nat
  sh_link : Nat
  sh_info : Nat
  sh_addralign : Nat
  sh_entsize : Nat
  deriving DecidableEq

/-- One program header `Elf64_Phdr`. -/
structure Elf64_Phdr where
  p_type : Nat
  p_flags : Nat
  p_offset : Nat
  p_vaddr : Nat
  p_paddr : Nat
  p_filesz : Nat
  p_memsz : Nat
  p_align : Nat
  deriving DecidableEq

/-- One symbol-table entry `Elf64_Sym`. -/
structure Elf64_Sym where
  st_name : Nat
  st_info : Nat
  st_other : Nat
  st_shndx : Nat
  st_value : Nat
  st_size : Nat
  deriving DecidableEq

/-- One relocation entry `Elf64_Rela` (`r_addend` kept as its unsigned
64-bit two's-complement bit pattern). -/
structure Elf64_Rela where
  r_offset : Nat
  r_info : Nat
  r_addend : Nat
  deriving DecidableEq

/-- Parse a 64-byte `Elf64_Ehdr` record from its raw bytes. -/
def parseEhdr (b : List Nat) : Elf64_Ehdr where
  e_ident := b.take 16
  e_type := field b 16 2
  e_machine := field b 18 2
  e_version := field b 20 4
  e_entry := field b 24 8
  e_phoff := field b 32 8
  e_shoff := field b 40 8
  e_flags := field b 48 4
  e_ehsize := field b 52 2
  e_phentsize := field b 54 2
  e_phnum := field b 56 2
  e_shentsize := field b 58 2
  e_shnum := field b 60 2
  e_shstrndx := field b 62 2

/-- Serialize an `Elf64_Ehdr` back to its fixed-size 64-byte record. -/
def serializeEhdr (h : Elf64_Ehdr) : List Nat :=
  h.e_ident ++ writeLE 2 h.e_type ++ writeLE 2 h.e_machine ++ writeLE 4 h.e_version ++
  writeLE 8 h.e_entry ++ writeLE 8 h.e_phoff ++ writeLE 8 h.e_shoff ++
  writeLE 4 h.e_flags ++ writeLE 2 h.e_ehsize ++ writeLE 2 h.e_phentsize ++
  writeLE 2 h.e_phnum ++ writeLE 2 h.e_shentsize ++ writeLE 2 h.e_shnum ++
  writeLE 2 h.e_shstrndx

/-- Parse a 64-byte `Elf64_Shdr` record from its raw bytes. -/
def parseShdr (b : List Nat) : Elf64_Shdr where
  sh_name := field b 0 4
  sh_type := field b 4 4
  sh_flags := field b 8 8
  sh_addr := field b 16 8
  sh_offset := field b 24 8
  sh_size := field b 32 8
  sh_link := field b 40 4
  sh_info := field b 44 4
  sh_addralign := field b 48 8
  sh_entsize := field b 56 8

/-- Serialize an `Elf64_Shdr` back to its fixed-size 64-byte record. -/
def serializeShdr (s : Elf64_Shdr) : List Nat :=
  writeLE 4 s.sh_name ++ writeLE 4 s.sh_type ++ writeLE 8 s.sh_flags ++
  writeLE 8 s.sh_addr ++ writeLE 8 s.sh_offset ++ writeLE 8 s.sh_size ++
  writeLE 4 s.sh_link ++ writeLE 4 s.sh_info ++ writeLE 8 s.sh_addralign ++
  writeLE 8 s.sh_entsize

/-- Parse a 56-byte `Elf64_Phdr` record from its raw bytes. -/
def parsePhdr (b : List Nat) : Elf64_Phdr where
  p_type := field b 0 4
  p_flags := field b 4 4
  p_offset := field b 8 8
  p_vaddr := field b 16 8
  p_paddr := field b 24 8
  p_filesz := field b 32 8
  p_memsz := field b 40 8
  p_align := field b 48 8

/-- Serialize an `Elf64_Phdr` back to its fixed-size 56-byte record. -/
def serializePhdr (p : Elf64_Phdr) : List Nat :=
  writeLE 4 p.p_type ++ writeLE 4 p.p_flags ++ writeLE 8 p.p_offset ++
  writeLE 8 p.p_vaddr ++ writeLE 8 p.p_paddr ++ writeLE 8 p.p_filesz ++
  writeLE 8 p.p_memsz ++ writeLE 8 p.p_align

/-- Parse a 24-byte `Elf64_Sym` record from its raw bytes. -/
def parseSym (b : List Nat) : Elf64_Sym where
  st_name := field b 0 4
  st_info := field b 4 1
  st_other := field b 5 1
  st_shndx := field b 6 2
  st_value := field b 8 8
  st_size := field b 16 8

/-- Serialize an `Elf64_Sym` back to its fixed-size 24-byte record. -/
def serializeSym (s : Elf64_Sym) : List Nat :=
  writeLE 4 s.st_name ++ writeLE 1 s.st_info ++ writeLE 1 s.st_other ++
  writeLE 2 s.st_shndx ++ writeLE 8 s.st_value ++ writeLE 8 s.st_size

/-- Parse a 24-byte `Elf64_Rela` record from its raw bytes. -/
def parseRela (b : List Nat) : Elf64_Rela where
  r_offset := field b 0 8
  r_info := field b 8 8
  r_addend := field b 16 8

/-- Serialize an `Elf64_Rela` back to its fixed-size 24-byte record. -/
def serializeRela (r : Elf64_Rela) : List Nat :=
  writeLE 8 r.r_offset ++ writeLE 8 r.r_info ++ writeLE 8 r.r_addend

/-! ## ELF constants -/

/-- Section type `SHT_SYMTAB`. -/
def SHT_SYMTAB : Nat := 2

/-- Section type `SHT_STRTAB`. -/
def SHT_STRTAB : Nat := 3

/-- Section type `SHT_NOBITS`. -/
def SHT_NOBITS : Nat := 8

/-- Symbol type `STT_FUNC`. -/
def STT_FUNC : Nat := 2

/-- Relocation kind `R_X86_64_RELATIVE`. -/
def R_X86_64_RELATIVE : Nat := 8

/-- The `ELF64_ST_TYPE` macro: low four bits of `st_info`. -/
def ELF64_ST_TYPE (info : Nat) : Nat := info % 16

/-- The `ELF64_R_TYPE` macro: low 32 bits of `r_info`. -/
def ELF64_R_TYPE (info : Nat) : Nat := info % 2 ^ 32

/-- The four ELF identification magic bytes `\x7fELF`. -/
def elf_magic : List Nat := [0x7f, 0x45, 0x4c, 0x46]

/-- The byte string `.strtab`. -/
def strtab_name : List Nat := [0x2e, 0x73, 0x74, 0x72, 0x74, 0x61, 0x62]

/-- The byte string `.rela.dyn`. -/
def rela_dyn_name : List Nat := [0x2e, 0x72, 0x65, 0x6c, 0x61, 0x2e, 0x64, 0x79, 0x6e]

/-- The byte string `.rela.plt`. -/
def rela_plt_name : List Nat := [0x2e, 0x72, 0x65, 0x6c, 0x61, 0x2e, 0x70, 0x6c, 0x74]

/-! ## The Elf object model -/

/-- Status result of mutation operations. -/
inductive status_t where
  | SUCCESS
  | FAILED
  deriving DecidableEq

/-- The error taxonomy of the core (spec section 7). -/
inductive elf_error where
  | IoError
  | NotFound
  | InvalidFormat
  | OutOfRange
  | Failed
  deriving DecidableEq

/-- The `elf_t` object: the parsed file header, the ordered section and
program-header sequences, and the owned backing region. -/
structure elf_t where
  type_tag : List Nat
  header : Elf64_Ehdr
  sections : List Elf64_Shdr
  program_headers : List Elf64_Phdr
  region : List Nat
  deriving DecidableEq

/-- Bounds-checked read of `count` records of `size` bytes each, laid out
consecutively from `base`; fails when any record exceeds the region. -/
def readRecords (r : List Nat) (base count size : Nat) : Option (List (List Nat)) :=
  match count with
  | 0 => some []
  | n + 1 =>
    if base + size ≤ r.length then
      match readRecords r (base + size) n size with
      | none => none
      | some rest => some ((r.drop base).take size :: rest)
    else none

/-- Overwrite the bytes of `r` at `off` with `bytes` (a fixed-size patch). -/
def write_back (r : List Nat) (off : Nat) (bytes : List Nat) : List Nat :=
  r.take off ++ bytes ++ r.drop (off + bytes.length)

/-- Write a sequence of fixed-size records back at consecutive offsets
from `base`. -/
def writeRecords (r : List Nat) (base size : Nat) (recs : List (List Nat)) : List Nat :=
  match recs with
  | [] => r
  | rec :: rest => writeRecords (write_back r base rec) (base + size) size rest

/-- Modelled from the spec: `create_elf(type, region)` (declared in
`src/parsers/elf_type.h`, implementation not in the repository). Reads the
`Elf64_Ehdr` at offset 0, validates the `\x7fELF` magic (else
`InvalidFormat`), requires `e_shentsize = 64` and `e_phentsize = 56`, then
slices one 64-byte chunk per section header at `e_shoff + i*64` and one
56-byte chunk per program header at `e_phoff + i*56`; any truncation or
out-of-range offset aborts construction. -/
def create_elf (ty r : List Nat) : Except elf_error elf_t :=
  if r.length < 64 then Except.error elf_error.InvalidFormat
  else if (parseEhdr (r.take 64)).e_ident.take 4 ≠ elf_magic then
    Except.error elf_error.InvalidFormat
  else if (parseEhdr (r.take 64)).e_shentsize ≠ 64 then
    Except.error elf_error.InvalidFormat
  else if (parseEhdr (r.take 64)).e_phentsize ≠ 56 then
    Except.error elf_error.InvalidFormat
  else
    match readRecords r (parseEhdr (r.take 64)).e_shoff (parseEhdr (r.take 64)).e_shnum 64 with
    | none => Except.error elf_error.InvalidFormat
    | some shb =>
      match readRecords r (parseEhdr (r.take 64)).e_phoff (parseEhdr (r.take 64)).e_phnum 56 with
      | none => Except.error elf_error.InvalidFormat
      | some phb =>
        Except.ok { type_tag := ty, header := parseEhdr (r.take 64),
                    sections := shb.map parseShdr,
                    program_headers := phb.map parsePhdr, region := r }

/-- Modelled from the spec: serializing the model back — each section
header, each program header and the file header written back to their
fixed-size records inside the region. -/
def serialize_elf (e : elf_t) : List Nat :=
  writeRecords
    (writeRecords (write_back e.region 0 (serializeEhdr e.header))
      e.header.e_shoff 64 (e.sections.map serializeShdr))
    e.header.e_phoff 56 (e.program_headers.map serializePhdr)

/-- Modelled from the spec: `get_section_data_chunk` returns
`region.chunk_at(sh_offset, sh_size)`; for `SHT_NOBITS` sections the empty
chunk. -/
def get_section_data_chunk (e : elf_t) (s : Elf64_Shdr) : List Nat :=
  if s.sh_type = SHT_NOBITS then [] else (e.region.drop s.sh_offset).take s.sh_size

/-- Read the null-terminated C string at offset `off` of `data`. -/
def readCString (data : List Nat) (off : Nat) : List Nat :=
  (data.drop off).takeWhile fun b => b != 0

/-- Modelled from the spec: the cached `.shstrtab` handle — the section at
index `e_shstrndx`. -/
def get_shstr_section (e : elf_t) : Option Elf64_Shdr :=
  e.sections[e.header.e_shstrndx]?

/-- Modelled from the spec: `get_section_name(s)` reads the
null-terminated string at byte offset `sh_name` within the `.shstrtab`
section's data chunk. -/
def get_section_name (e : elf_t) (s : Elf64_Shdr) : List Nat :=
  match get_shstr_section e with
  | none => []
  | some sh => readCString (get_section_data_chunk e sh) s.sh_name

/-- Whether a section's resolved name is nonempty and equals `name`
(empty-name sections are skipped by `get_section_by_name`). -/
def section_name_matches (e : elf_t) (name : List Nat) (s : Elf64_Shdr) : Bool :=
  !(get_section_name e s).isEmpty && (get_section_name e s == name)

/-- Modelled from the spec: `get_section_by_name` scans the section list
linearly comparing resolved names, first match wins, empty-name sections
skipped. -/
def get_section_by_name (e : elf_t) (name : List Nat) : Option Elf64_Shdr :=
  e.sections.find? (section_name_matches e name)

/-- Modelled from the spec: the `.strtab` cache — the first `SHT_STRTAB`
section whose resolved name equals `.strtab`. -/
def get_strtab_section (e : elf_t) : Option Elf64_Shdr :=
  e.sections.find? fun s => (s.sh_type == SHT_STRTAB) && (get_section_name e s == strtab_name)

/-- Locate `.symtab`: the first section of type `SHT_SYMTAB`. -/
def find_symtab_section (e : elf_t) : Option Elf64_Shdr :=
  e.sections.find? fun s => s.sh_type == SHT_SYMTAB

/-- Split section data into consecutive records of `size` bytes (the
`fuel` argument, instantiated with the data length, only bounds the
recursion structurally; each step consumes `size ≥ 1` bytes). -/
def splitRecordsAux (size : Nat) : Nat → List Nat → List (List Nat)
  | 0, _ => []
  | fuel + 1, data =>
    if size = 0 ∨ data.length < size then []
    else data.take size :: splitRecordsAux size fuel (data.drop size)

/-- Split section data into consecutive records of `size` bytes. -/
def splitRecords (size : Nat) (data : List Nat) : List (List Nat) :=
  splitRecordsAux size data.length data

/-- The `.symtab` entries of an Elf, parsed as 24-byte `Elf64_Sym`
records; empty when `.symtab` is absent. -/
def symtab_entries (e : elf_t) : List Elf64_Sym :=
  match find_symtab_section e with
  | none => []
  | some st => (splitRecords 24 (get_section_data_chunk e st)).map parseSym

/-- Resolve a symbol's name in `.strtab` at offset `st_name`. -/
def symbol_name (e : elf_t) (sym : Elf64_Sym) : List Nat :=
  match get_strtab_section e with
  | none => []
  | some st => readCString (get_section_data_chunk e st) sym.st_name

/-- The first `.symtab` entry of type `STT_FUNC` whose name resolves to
`name`. -/
def find_function_sym (e : elf_t) (name : List Nat) : Option Elf64_Sym :=
  (symtab_entries e).find? fun sym =>
    (ELF64_ST_TYPE sym.st_info == STT_FUNC) && (symbol_name e sym == name)

/-- Modelled from the spec: `get_function_offset(name)` — locate
`.symtab`, iterate its `Elf64_Sym` records, return the first `STT_FUNC`
entry whose `.strtab` name matches; absent result otherwise. -/
def get_function_offset (e : elf_t) (name : List Nat) : Option Nat :=
  (find_function_sym e name).map fun sym => sym.st_value

/-- Modelled from the header's C signature: `Elf64_Addr
get_function_offset(elf_t*, char*)` returns a bare unsigned 64-bit value,
so the absent case collapses onto the sentinel value 0. -/
def get_function_offset_iface (e : elf_t) (name : List Nat) : Nat :=
  (get_function_offset e name).getD 0

/-- The first section whose virtual range `[sh_addr, sh_addr + sh_size)`
contains `addr`. -/
def find_section_containing (e : elf_t) (addr : Nat) : Option Elf64_Shdr :=
  e.sections.find? fun s =>
    decide (s.sh_addr ≤ addr) && decide (addr < s.sh_addr + s.sh_size)

/-- Bounds-checked chunk slice (spec 4.A: fails with `OutOfRange` when
`offset + length` exceeds the source). -/
def chunk_slice (data : List Nat) (off len : Nat) : Option (List Nat) :=
  if off + len ≤ data.length then some ((data.drop off).take len) else none

/-- Modelled from the spec: `get_function_chunk(name)` resolves the
function's address and symbol entry, finds the section whose virtual range
contains the address, and returns the sub-chunk at the intra-section
offset of length `st_size`. -/
def get_function_chunk (e : elf_t) (name : List Nat) : Option (List Nat) :=
  match find_function_sym e name with
  | none => none
  | some sym =>
    match find_section_containing e sym.st_value with
    | none => none
    | some sec =>
      chunk_slice (get_section_data_chunk e sec) (sym.st_value - sec.sh_addr) sym.st_size

/-! ## Symbol/relocation bookkeeping -/

/-- Modelled from the spec: the `.symtab` pass of `update_symbols_offsets`
— any entry whose `st_shndx` equals the section's index gets `offset`
added to `st_value` (64-bit wrap). -/
def update_symtab_entries (secIdx delta : Nat) : List Elf64_Sym → List Elf64_Sym
  | [] => []
  | s :: rest =>
    (if s.st_shndx = secIdx then { s with st_value := (s.st_value + delta) % 2 ^ 64 } else s) ::
      update_symtab_entries secIdx delta rest

/-- Modelled from the spec: the `.rela.dyn`/`.rela.plt` pass of
`update_symbols_offsets` — any entry whose `r_offset` lies within the
section's virtual range gets `offset` added to `r_offset`, and
`R_X86_64_RELATIVE` entries additionally to `r_addend` (64-bit wrap). -/
def update_rela_entries (secAddr secSize delta : Nat) : List Elf64_Rela → List Elf64_Rela
  | [] => []
  | r :: rest =>
    (if secAddr ≤ r.r_offset ∧ r.r_offset < secAddr + secSize then
      { r with r_offset := (r.r_offset + delta) % 2 ^ 64,
               r_addend := if ELF64_R_TYPE r.r_info = R_X86_64_RELATIVE then
                   (r.r_addend + delta) % 2 ^ 64 else r.r_addend }
    else r) :: update_rela_entries secAddr secSize delta rest

/-- Serialize a symbol table back to bytes. -/
def sym_table_bytes (l : List Elf64_Sym) : List Nat := (l.map serializeSym).flatten

/-- Serialize a relocation table back to bytes. -/
def rela_table_bytes (l : List Elf64_Rela) : List Nat := (l.map serializeRela).flatten

/-- Rewrite the `.symtab` section contents in the region after applying
`update_symtab_entries`; identity when `.symtab` is absent. -/
def upd_symtab_step (e : elf_t) (secIdx delta : Nat) : elf_t :=
  match find_symtab_section e with
  | none => e
  | some st =>
    let bytes : List Nat := sym_table_bytes (update_symtab_entries secIdx delta
      ((splitRecords 24 (get_section_data_chunk e st)).map parseSym))
    { e with region := write_back e.region st.sh_offset bytes }

/-- Rewrite one relocation section (located by name) in the region after
applying `update_rela_entries`; identity when the section is absent. -/
def upd_rela_step (e : elf_t) (name : List Nat) (secAddr secSize delta : Nat) : elf_t :=
  match get_section_by_name e name with
  | none => e
  | some rs =>
    let bytes : List Nat := rela_table_bytes (update_rela_entries secAddr secSize delta
      ((splitRecords 24 (get_section_data_chunk e rs)).map parseRela))
    { e with region := write_back e.region rs.sh_offset bytes }

/-- Modelled from the spec: `update_symbols_offsets(section, offset)`
(declared in `src/parsers/elf_type.h`, implementation not in the
repository) — update `.symtab`, then `.rela.dyn`, then `.rela.plt`. The
section is designated by its index, the embedding of C pointer identity. -/
def update_symbols_offsets (e : elf_t) (secIdx delta : Nat) : elf_t :=
  match e.sections[secIdx]? with
  | none => e
  | some sec =>
    upd_rela_step
      (upd_rela_step (upd_symtab_step e secIdx delta)
        rela_dyn_name sec.sh_addr sec.sh_size delta)
      rela_plt_name sec.sh_addr sec.sh_size delta

/-- The parsed entries of a relocation section located by name. -/
def rela_entries (e : elf_t) (name : List Nat) : List Elf64_Rela :=
  match get_section_by_name e name with
  | none => []
  | some rs => (splitRecords 24 (get_section_data_chunk e rs)).map parseRela

/-! ## Mutation protocol -/

/-- Indices of the sections whose `sh_offset` follows the splice point. -/
def stale_indices (e : elf_t) (spliceOff : Nat) : List Nat :=
  (List.range e.sections.length).filter fun i =>
    match e.sections[i]? with
    | some s => decide (spliceOff < s.sh_offset)
    | none => false

/-- Modelled from the spec: after a section splice, call
`update_symbols_offsets` on every section following the splice point,
passing the delta. -/
def refresh_offsets (e : elf_t) (spliceOff delta : Nat) : elf_t :=
  (stale_indices e spliceOff).foldl (fun acc i => update_symbols_offsets acc i delta) e

/-- Modelled from the spec: `add_section` appends to the section list,
bumps `e_shnum`, then refreshes stale symbol/relocation offsets (the spec
leaves the delta unspecified; the added section's size is used). -/
def add_section (e : elf_t) (s : Elf64_Shdr) : status_t × elf_t :=
  let e2 : elf_t :=
    { e with sections := e.sections ++ [s],
             header := { e.header with e_shnum := e.header.e_shnum + 1 } }
  (status_t.SUCCESS, refresh_offsets e2 s.sh_offset s.sh_size)

/-- Modelled from the spec: `remove_section` fails (without mutating
state) on the cached `.shstrtab` section or an unknown section; otherwise
it removes the section, decrements `e_shnum`, and refreshes stale offsets
(delta is the removed size negated modulo `2 ^ 64`). -/
def remove_section (e : elf_t) (i : Nat) : status_t × elf_t :=
  if i = e.header.e_shstrndx then (status_t.FAILED, e)
  else
    match e.sections[i]? with
    | none => (status_t.FAILED, e)
    | some s =>
      let e2 : elf_t :=
        { e with sections := e.sections.eraseIdx i,
                 header := { e.header with
                   e_shnum := e.header.e_shnum - 1,
                   e_shstrndx := if i < e.header.e_shstrndx then
                       e.header.e_shstrndx - 1 else e.header.e_shstrndx } }
      (status_t.SUCCESS, refresh_offsets e2 s.sh_offset ((2 ^ 64 - s.sh_size) % 2 ^ 64))

/-- Modelled from the spec: `add_program_header` appends and bumps
`e_phnum`. -/
def add_program_header (e : elf_t) (p : Elf64_Phdr) : status_t × elf_t :=
  (status_t.SUCCESS,
   { e with program_headers := e.program_headers ++ [p],
            header := { e.header with e_phnum := e.header.e_phnum + 1 } })

/-- Modelled from the spec: `remove_program_header` fails on an unknown
program header, else removes it and decrements `e_phnum`. -/
def remove_program_header (e : elf_t) (i : Nat) : status_t × elf_t :=
  match e.program_headers[i]? with
  | none => (status_t.FAILED, e)
  | some _ =>
    (status_t.SUCCESS,
     { e with program_headers := e.program_headers.eraseIdx i,
              header := { e.header with e_phnum := e.header.e_phnum - 1 } })

/-- Invariants 1 and 2 of the Elf data model: `e_shnum` equals the length
of the section sequence and `e_phnum` the length of the program-header
sequence. -/
def counts_ok (e : elf_t) : Prop :=
  e.header.e_shnum = e.sections.length ∧ e.header.e_phnum = e.program_headers.length

/-! ## Chains -/

/-- A decoded instruction record: its virtual address and its raw bytes
(the byte length of the instruction is `bytes.length`). -/
structure instruction_t where
  addr : Nat
  bytes : List Nat
  deriving DecidableEq

/-- Modelled from the spec: the external x86 decoder is out of scope; the
spec constrains only the one-byte opcodes nop (`0x90`) and ret (`0xc3`),
so the modelled decoder knows exactly those instruction lengths. -/
def insn_length (b : Nat) : Option Nat :=
  if b = 0x90 ∨ b = 0xc3 then some 1 else none

/-- Decode loop with a structural fuel bound (instantiated with the byte
count; each decoded instruction consumes at least one byte). Fails on an
undecodable byte. Each step consumes the instruction's length `len ≥ 1`,
written as one byte plus `len - 1` more. -/
def decode_insns_fuel : Nat → Nat → List Nat → Option (List instruction_t)
  | _, _, [] => some []
  | 0, _, _ :: _ => none
  | fuel + 1, addr, b :: rest =>
    match insn_length b with
    | none => none
    | some len =>
      match decode_insns_fuel fuel (addr + len) (rest.drop (len - 1)) with
      | none => none
      | some insns => some ({ addr := addr, bytes := b :: rest.take (len - 1) } :: insns)

/-- Decode a byte list into consecutive instructions starting at `addr`. -/
def decode_insns (addr : Nat) (bytes : List Nat) : Option (List instruction_t) :=
  decode_insns_fuel bytes.length addr bytes

/-- Disassembly mnemonic of one modelled instruction. -/
def mnemonic (i : instruction_t) : String :=
  if i.bytes.head? = some 0x90 then "nop"
  else if i.bytes.head? = some 0xc3 then "ret"
  else "db"

/-- Assemble the human-readable string form of an instruction list. -/
def synth_str (l : List instruction_t) : String :=
  String.intercalate " ; " (l.map mnemonic)

/-- A chain: entry address, disassembly string, backing chunk, decoded
instruction sequence. -/
structure chain_t where
  addr : Nat
  str : String
  chunk : List Nat
  instructions : List instruction_t
  deriving DecidableEq

/-- Modelled from the spec: `chain_create(addr, str, chunk, instructions)`
— the trusted raw constructor, storing its arguments as given. -/
def chain_create (addr : Nat) (str : String) (chunk : List Nat)
    (instructions : List instruction_t) : chain_t :=
  { addr := addr, str := str, chunk := chunk, instructions := instructions }

/-- Modelled from the spec: `chain_create_from_insn(addr, instructions)` —
synthesizes the chunk (concatenated instruction bytes) and string form. -/
def chain_create_from_insn (addr : Nat) (instructions : List instruction_t) : chain_t :=
  { addr := addr, str := synth_str instructions,
    chunk := (instructions.map fun i => i.bytes).flatten, instructions := instructions }

/-- Modelled from the spec: `chain_create_from_string(addr, chunk)` —
decodes instructions from the chunk and assembles the string form; fails
when decoding fails. -/
def chain_create_from_string (addr : Nat) (chain_str : List Nat) : Option chain_t :=
  (decode_insns addr chain_str).map fun insns =>
    { addr := addr, str := synth_str insns, chunk := chain_str, instructions := insns }

/-- The sum of the instruction byte lengths of a chain's instruction
list. -/
def sum_insn_lengths (l : List instruction_t) : Nat :=
  (l.map fun i => i.bytes.length).sum

/-- The address sequence of an instruction list. -/
def insn_addrs (l : List instruction_t) : List Nat := l.map fun i => i.addr

/-- The chain invariant: the concatenated instruction byte lengths equal
the chunk's length, and the instruction addresses are strictly increasing
starting at the chain's address. -/
def chain_inv (c : chain_t) : Prop :=
  sum_insn_lengths c.instructions = c.chunk.length ∧
  List.Chain' (· < ·) (insn_addrs c.instructions) ∧
  (c.instructions = [] ∨ (insn_addrs c.instructions).head? = some c.addr)

instance chain_inv_decidable (c : chain_t) : Decidable (chain_inv c) :=
  inferInstanceAs (Decidable (sum_insn_lengths c.instructions = c.chunk.length ∧
    List.Chain' (· < ·) (insn_addrs c.instructions) ∧
    (c.instructions = [] ∨ (insn_addrs c.instructions).head? = some c.addr)))

/-! ## Concrete instances used by witnesses and counterexamples -/

/-- The empty Elf object (used as a `getD` default and as an Elf with no
`.symtab`). -/
def elfEmpty : elf_t :=
  { type_tag := [], header := parseEhdr [], sections := [], program_headers := [], region := [] }

/-- A minimal well-formed 128-byte ELF region: a file header (`e_shoff =
64`, one all-zero section header, no program headers) followed by the
64-byte null section header. -/
def W1 : List Nat :=
  [0x7f, 0x45, 0x4c, 0x46, 2, 1, 1, 0, 0, 0, 0, 0, 0, 0, 0, 0,
   2, 0, 0x3e, 0, 1, 0, 0, 0] ++ List.replicate 16 0 ++
  [64, 0, 0, 0, 0, 0, 0, 0] ++ [0, 0, 0, 0] ++
  [64, 0, 56, 0, 0, 0, 64, 0, 1, 0, 0, 0] ++ List.replicate 64 0

/-- The Elf parsed from `W1`. -/
def elfW : elf_t := (create_elf [] W1).toOption.getD elfEmpty

/-- The byte string `main`. -/
def nameMain : List Nat := [0x6d, 0x61, 0x69, 0x6e]

/-- The byte string `nope`. -/
def nameNope : List Nat := [0x6e, 0x6f, 0x70, 0x65]

/-- Backing region of `elfFn`: a `.shstrtab` blob, a `.strtab` blob
containing `main`, one `Elf64_Sym` record (`STT_FUNC` `main` at
`0x401000`, size 4), and 4 bytes of `.text` data. -/
def elfFn_region : List Nat :=
  [0,
   0x2e, 0x74, 0x65, 0x78, 0x74, 0,
   0x2e, 0x73, 0x79, 0x6d, 0x74, 0x61, 0x62, 0,
   0x2e, 0x73, 0x74, 0x72, 0x74, 0x61, 0x62, 0,
   0, 0x6d, 0x61, 0x69, 0x6e, 0,
   1, 0, 0, 0, 2, 0, 4, 0, 0, 0x10, 0x40, 0, 0, 0, 0, 0, 4, 0, 0, 0, 0, 0, 0, 0,
   0x90, 0x90, 0x90, 0xc3]

/-- The null section of the concrete Elfs. -/
def secNull : Elf64_Shdr := ⟨0, 0, 0, 0, 0, 0, 0, 0, 0, 0⟩

/-- `.shstrtab` of `elfFn`. -/
def secShstr : Elf64_Shdr := ⟨0, 3, 0, 0, 0, 23, 0, 0, 0, 0⟩

/-- `.strtab` of `elfFn`. -/
def secStrtab : Elf64_Shdr := ⟨15, 3, 0, 0, 23, 6, 0, 0, 0, 0⟩

/-- `.symtab` of `elfFn`. -/
def secSymtab : Elf64_Shdr := ⟨7, 2, 0, 0, 29, 24, 2, 0, 0, 24⟩

/-- `.text` of `elfFn`, mapped at `0x401000` with 4 bytes of data. -/
def secText : Elf64_Shdr := ⟨1, 1, 6, 0x401000, 53, 4, 0, 0, 16, 0⟩

/-- File header of `elfFn`. -/
def ehdrFn : Elf64_Ehdr :=
  ⟨[0x7f, 0x45, 0x4c, 0x46, 2, 1, 1, 0, 0, 0, 0, 0, 0, 0, 0, 0],
   2, 0x3e, 1, 0x401000, 0, 0, 0, 64, 56, 0, 64, 5, 1⟩

/-- A concrete Elf with `.shstrtab`, `.strtab`, `.symtab` (one `STT_FUNC`
symbol `main` at `0x401000`, size 4) and `.text`. -/
def elfFn : elf_t :=
  { type_tag := [], header := ehdrFn,
    sections := [secNull, secShstr, secStrtab, secSymtab, secText],
    program_headers := [], region := elfFn_region }

/-- The symbol entry for `main` inside `elfFn`. -/
def symMain : Elf64_Sym := ⟨1, 2, 0, 4, 0x401000, 4⟩

/-- The `.text` bytes of `elfFn` backing `main`. -/
def chunkMain : List Nat := [0x90, 0x90, 0x90, 0xc3]

/-- `elfFn` with the `main` symbol's `st_value` rewritten to 0 in the
region (a function genuinely resolved at address 0). -/
def elfZero_region : List Nat :=
  [0,
   0x2e, 0x74, 0x65, 0x78, 0x74, 0,
   0x2e, 0x73, 0x79, 0x6d, 0x74, 0x61, 0x62, 0,
   0x2e, 0x73, 0x74, 0x72, 0x74, 0x61, 0x62, 0,
   0, 0x6d, 0x61, 0x69, 0x6e, 0,
   1, 0, 0, 0, 2, 0, 4, 0, 0, 0, 0, 0, 0, 0, 0, 0, 4, 0, 0, 0, 0, 0, 0, 0,
   0x90, 0x90, 0x90, 0xc3]

/-- A concrete Elf whose function `main` resolves to address 0. -/
def elfZero : elf_t :=
  { type_tag := [], header := ehdrFn,
    sections := [secNull, secShstr, secStrtab, secSymtab, secText],
    program_headers := [], region := elfZero_region }

/-- The single section of `elf5`: its `sh_name` resolves to the empty
string. -/
def elf5_s0 : Elf64_Shdr := ⟨0, 3, 0, 0, 0, 1, 0, 0, 0, 0⟩

/-- File header of `elf5` (one section, `e_shstrndx = 0`). -/
def ehdr5 : Elf64_Ehdr := ⟨List.replicate 16 0, 0, 0, 0, 0, 0, 0, 0, 0, 0, 0, 0, 1, 0⟩

/-- A concrete Elf with a single, uniquely named section whose resolved
name is empty. -/
def elf5 : elf_t :=
  { type_tag := [], header := ehdr5, sections := [elf5_s0],
    program_headers := [], region := [0] }

/-- Backing region of `elfC4`: a `.shstrtab` blob followed by one
`Elf64_Rela` record with `r_offset = 0x401020`. -/
def elfC4_region : List Nat :=
  [0,
   0x2e, 0x74, 0x65, 0x78, 0x74, 0,
   0x2e, 0x72, 0x65, 0x6c, 0x61, 0x2e, 0x70, 0x6c, 0x74, 0,
   0x20, 0x10, 0x40, 0, 0, 0, 0, 0, 7, 0, 0, 0, 0, 0, 0, 0, 0, 0, 0, 0, 0, 0, 0, 0]

/-- `.shstrtab` of `elfC4`. -/
def secShstrC4 : Elf64_Shdr := ⟨0, 3, 0, 0, 0, 17, 0, 0, 0, 0⟩

/-- `.text` of `elfC4`, mapped at `[0x401000, 0x402000)`. -/
def secTextC4 : Elf64_Shdr := ⟨1, 1, 6, 0x401000, 0, 0x1000, 0, 0, 16, 0⟩

/-- `.rela.plt` of `elfC4`: one 24-byte entry at region offset 17. -/
def secRelaPltC4 : Elf64_Shdr := ⟨7, 4, 0, 0, 17, 24, 0, 0, 8, 24⟩

/-- File header of `elfC4`. -/
def ehdrC4 : Elf64_Ehdr :=
  ⟨[0x7f, 0x45, 0x4c, 0x46, 2, 1, 1, 0, 0, 0, 0, 0, 0, 0, 0, 0],
   2, 0x3e, 1, 0, 0, 0, 0, 64, 56, 0, 64, 4, 1⟩

/-- A concrete Elf whose `.text` precedes a `.rela.plt` containing one
entry with `r_offset = 0x401020`. -/
def elfC4 : elf_t :=
  { type_tag := [], header := ehdrC4,
    sections := [secNull, secShstrC4, secTextC4, secRelaPltC4],
    program_headers := [], region := elfC4_region }

/-- The chain decoded from `nop nop ret` at `0x400000` (scenario S6). -/
def chainS6 : chain_t :=
  (chain_create_from_string 0x400000 [0x90, 0x90, 0xc3]).getD (chain_create 0 "" [] [])

/-- A chain built by the trusted raw constructor from inconsistent
arguments: an empty chunk paired with one 1-byte instruction at a wrong
address. -/
def bad_chain : chain_t := chain_create 0 "" [] [⟨5, [0x90]⟩]

/-- A chain built by `chain_create_from_insn` from a pre-decoded
instruction whose address (5) does not start at the chain address (0):
the synthesized chunk matches the byte lengths, but the address sequence
does not start at the chain's address. -/
def bad_insn_chain : chain_t := chain_create_from_insn 0 [⟨5, [0x90]⟩]

/-! # Theorems -/

/-! ## Codec round trips -/

theorem writeLE_readLE (bs : List Nat) (h : ∀ b ∈ bs, b < 256) :
    writeLE bs.length (readLE bs) = bs := by
  induction bs with
  | nil => rfl
  | cons b rest ih =>
    have hb : b < 256 := h b (List.mem_cons_self b rest)
    have hr : ∀ x ∈ rest, x < 256 := fun x hx => h x (List.mem_cons_of_mem b hx)
    simp only [List.length_cons, writeLE, readLE]
    have h1 : (b + 256 * readLE rest) % 256 = b := by omega
    have h2 : (b + 256 * readLE rest) / 256 = readLE rest := by omega
    rw [h1, h2, ih hr]

theorem writeLE_field (b : List Nat) (off len : Nat) (hb : ∀ x ∈ b, x < 256)
    (hle : off + len ≤ b.length) :
    writeLE len (field b off len) = (b.drop off).take len := by
  have hlen : ((b.drop off).take len).length = len := by
    simp only [List.length_take, List.length_drop]
    omega
  have hmem : ∀ x ∈ (b.drop off).take len, x < 256 := fun x hx =>
    hb x (List.drop_subset off b (List.take_subset len (b.drop off) hx))
  calc writeLE len (field b off len)
      = writeLE ((b.drop off).take len).length (readLE ((b.drop off).take len)) := by
        rw [hlen]; rfl
    _ = (b.drop off).take len := writeLE_readLE _ hmem

theorem slices_concat (b : List Nat) (o l m o2 s : Nat) (h1 : o2 = o + l)
    (h2 : s = l + m) :
    (b.drop o).take l ++ (b.drop o2).take m = (b.drop o).take s := by
  subst h1; subst h2
  rw [List.take_add]
  congr 1
  rw [List.drop_drop]

theorem serializeShdr_parseShdr (b : List Nat) (hb : ∀ x ∈ b, x < 256)
    (hl : b.length = 64) :
    serializeShdr (parseShdr b) = b := by
  simp only [serializeShdr, parseShdr]
  rw [writeLE_field b 0 4 hb (by omega), writeLE_field b 4 4 hb (by omega),
    writeLE_field b 8 8 hb (by omega), writeLE_field b 16 8 hb (by omega),
    writeLE_field b 24 8 hb (by omega), writeLE_field b 32 8 hb (by omega),
    writeLE_field b 40 4 hb (by omega), writeLE_field b 44 4 hb (by omega),
    writeLE_field b 48 8 hb (by omega), writeLE_field b 56 8 hb (by omega)]
  rw [slices_concat b 0 4 4 4 8 rfl rfl, slices_concat b 0 8 8 8 16 rfl rfl,
    slices_concat b 0 16 8 16 24 rfl rfl, slices_concat b 0 24 8 24 32 rfl rfl,
    slices_concat b 0 32 8 32 40 rfl rfl, slices_concat b 0 40 4 40 44 rfl rfl,
    slices_concat b 0 44 4 44 48 rfl rfl, slices_concat b 0 48 8 48 56 rfl rfl,
    slices_concat b 0 56 8 56 64 rfl rfl]
  rw [List.drop_zero, ← hl, List.take_length]

theorem serializePhdr_parsePhdr (b : List Nat) (hb : ∀ x ∈ b, x < 256)
    (hl : b.length = 56) :
    serializePhdr (parsePhdr b) = b := by
  simp only [serializePhdr, parsePhdr]
  rw [writeLE_field b 0 4 hb (by omega), writeLE_field b 4 4 hb (by omega),
    writeLE_field b 8 8 hb (by omega), writeLE_field b 16 8 hb (by omega),
    writeLE_field b 24 8 hb (by omega), writeLE_field b 32 8 hb (by omega),
    writeLE_field b 40 8 hb (by omega), writeLE_field b 48 8 hb (by omega)]
  rw [slices_concat b 0 4 4 4 8 rfl rfl, slices_concat b 0 8 8 8 16 rfl rfl,
    slices_concat b 0 16 8 16 24 rfl rfl, slices_concat b 0 24 8 24 32 rfl rfl,
    slices_concat b 0 32 8 32 40 rfl rfl, slices_concat b 0 40 8 40 48 rfl rfl,
    slices_concat b 0 48 8 48 56 rfl rfl]
  rw [List.drop_zero, ← hl, List.take_length]

theorem serializeEhdr_parseEhdr (b : List Nat) (hb : ∀ x ∈ b, x < 256)
    (hl : b.length = 64) :
    serializeEhdr (parseEhdr b) = b := by
  simp only [serializeEhdr, parseEhdr]
  rw [writeLE_field b 16 2 hb (by omega), writeLE_field b 18 2 hb (by omega),
    writeLE_field b 20 4 hb (by omega), writeLE_field b 24 8 hb (by omega),
    writeLE_field b 32 8 hb (by omega), writeLE_field b 40 8 hb (by omega),
    writeLE_field b 48 4 hb (by omega), writeLE_field b 52 2 hb (by omega),
    writeLE_field b 54 2 hb (by omega), writeLE_field b 56 2 hb (by omega),
    writeLE_field b 58 2 hb (by omega), writeLE_field b 60 2 hb (by omega),
    writeLE_field b 62 2 hb (by omega)]
  have h16 : b.take 16 = (b.drop 0).take 16 := by rw [List.drop_zero]
  rw [h16, slices_concat b 0 16 2 16 18 rfl rfl, slices_concat b 0 18 2 18 20 rfl rfl,
    slices_concat b 0 20 4 20 24 rfl rfl, slices_concat b 0 24 8 24 32 rfl rfl,
    slices_concat b 0 32 8 32 40 rfl rfl, slices_concat b 0 40 8 40 48 rfl rfl,
    slices_concat b 0 48 4 48 52 rfl rfl, slices_concat b 0 52 2 52 54 rfl rfl,
    slices_concat b 0 54 2 54 56 rfl rfl, slices_concat b 0 56 2 56 58 rfl rfl,
    slices_concat b 0 58 2 58 60 rfl rfl, slices_concat b 0 60 2 60 62 rfl rfl,
    slices_concat b 0 62 2 62 64 rfl rfl]
  rw [List.drop_zero, ← hl, List.take_length]

/-! ## Generic list helpers -/

theorem map_id_of_eq {α : Type} (f : α → α) (l : List α) (h : ∀ a ∈ l, f a = a) :
    l.map f = l := by
  induction l with
  | nil => rfl
  | cons a t ih =>
    simp only [List.map_cons, h a (List.mem_cons_self a t),
      ih fun x hx => h x (List.mem_cons_of_mem a hx)]

theorem find?_of_unique {α : Type} (p : α → Bool) (l : List α) (a : α)
    (ha : a ∈ l) (hpa : p a = true) (huniq : ∀ b ∈ l, p b = true → b = a) :
    l.find? p = some a := by
  induction l with
  | nil => cases ha
  | cons x t ih =>
    by_cases hx : p x = true
    · have hxa : x = a := huniq x (List.mem_cons_self x t) hx
      subst hxa
      rw [List.find?_cons_of_pos _ hx]
    · have hat : a ∈ t := by
        cases List.mem_cons.mp ha with
        | inl heq => exact absurd hpa (heq ▸ hx)
        | inr hmem => exact hmem
      rw [List.find?_cons_of_neg _ (by simpa using hx)]
      exact ih hat fun b hb hpb => huniq b (List.mem_cons_of_mem x hb) hpb

theorem find?_first_index {α : Type} (p : α → Bool) (l : List α) (i : Nat) (a : α)
    (ha : l[i]? = some a) (hpa : p a = true)
    (hprev : ∀ j b, j < i → l[j]? = some b → p b = false) :
    l.find? p = some a := by
  induction l generalizing i with
  | nil => simp at ha
  | cons x t ih =>
    cases i with
    | zero =>
      simp only [List.getElem?_cons_zero, Option.some_inj] at ha
      subst ha
      rw [List.find?_cons_of_pos _ hpa]
    | succ n =>
      have h0 : p x = false := hprev 0 x (Nat.succ_pos n) (by simp)
      rw [List.find?_cons_of_neg _ (by simp [h0])]
      exact ih n (by simpa using ha) fun j b hj hb =>
        hprev (j + 1) b (Nat.succ_lt_succ hj) (by simpa using hb)

/-! ## Region patching round trips -/

theorem write_back_take (r : List Nat) (n : Nat) (h : n ≤ r.length) :
    write_back r 0 (r.take n) = r := by
  unfold write_back
  rw [List.take_zero, List.nil_append, List.length_take, Nat.min_eq_left h, Nat.zero_add,
    List.take_append_drop]

theorem write_back_of_slice (r : List Nat) (off n : Nat) (h : off + n ≤ r.length) :
    write_back r off ((r.drop off).take n) = r := by
  unfold write_back
  have h1 : ((r.drop off).take n).length = n := by
    simp only [List.length_take, List.length_drop]; omega
  rw [h1, List.append_assoc, ← List.drop_drop, List.take_append_drop, List.take_append_drop]

theorem readRecords_length (r : List Nat) (base count size : Nat) (recs : List (List Nat))
    (h : readRecords r base count size = some recs) : recs.length = count := by
  induction count generalizing base recs with
  | zero =>
    simp only [readRecords, Option.some_inj] at h
    rw [← h]; rfl
  | succ n ih =>
    simp only [readRecords] at h
    by_cases hb : base + size ≤ r.length
    · rw [if_pos hb] at h
      cases hr : readRecords r (base + size) n size with
      | none => rw [hr] at h; exact absurd h (by simp)
      | some rest =>
        rw [hr] at h
        simp only [Option.some_inj] at h
        rw [← h, List.length_cons, ih (base + size) rest hr]
    · rw [if_neg hb] at h; exact absurd h (by simp)

theorem readRecords_mem (r : List Nat) (base count size : Nat) (recs : List (List Nat))
    (h : readRecords r base count size = some recs) :
    ∀ rec ∈ recs, rec.length = size ∧ ∀ x ∈ rec, x ∈ r := by
  induction count generalizing base recs with
  | zero =>
    simp only [readRecords, Option.some_inj] at h
    rw [← h]
    intro rec hrec
    cases hrec
  | succ n ih =>
    simp only [readRecords] at h
    by_cases hb : base + size ≤ r.length
    · rw [if_pos hb] at h
      cases hr : readRecords r (base + size) n size with
      | none => rw [hr] at h; exact absurd h (by simp)
      | some rest =>
        rw [hr] at h
        simp only [Option.some_inj] at h
        rw [← h]
        intro rec hrec
        cases List.mem_cons.mp hrec with
        | inl heq =>
          subst heq
          refine ⟨?_, ?_⟩
          · simp only [List.length_take, List.length_drop]; omega
          · intro x hx
            exact List.drop_subset base r (List.take_subset size (r.drop base) hx)
        | inr hmem => exact ih (base + size) rest hr rec hmem
    · rw [if_neg hb] at h; exact absurd h (by simp)

theorem writeRecords_readRecords (r : List Nat) (base count size : Nat)
    (recs : List (List Nat)) (h : readRecords r base count size = some recs) :
    writeRecords r base size recs = r := by
  induction count generalizing base recs with
  | zero =>
    simp only [readRecords, Option.some_inj] at h
    rw [← h]; rfl
  | succ n ih =>
    simp only [readRecords] at h
    by_cases hb : base + size ≤ r.length
    · rw [if_pos hb] at h
      cases hr : readRecords r (base + size) n size with
      | none => rw [hr] at h; exact absurd h (by simp)
      | some rest =>
        rw [hr] at h
        simp only [Option.some_inj] at h
        rw [← h]
        show writeRecords r base size ((r.drop base).take size :: rest) = r
        simp only [writeRecords]
        rw [write_back_of_slice r base size hb]
        exact ih (base + size) rest hr
    · rw [if_neg hb] at h; exact absurd h (by simp)

theorem create_elf_ok_inv (ty r : List Nat) (e : elf_t)
    (h : create_elf ty r = Except.ok e) :
    ¬ r.length < 64 ∧
    ∃ shb phb,
      readRecords r (parseEhdr (r.take 64)).e_shoff (parseEhdr (r.take 64)).e_shnum 64 =
        some shb ∧
      readRecords r (parseEhdr (r.take 64)).e_phoff (parseEhdr (r.take 64)).e_phnum 56 =
        some phb ∧
      e = { type_tag := ty, header := parseEhdr (r.take 64),
            sections := shb.map parseShdr, program_headers := phb.map parsePhdr,
            region := r } := by
  unfold create_elf at h
  by_cases h1 : r.length < 64
  · rw [if_pos h1] at h; exact absurd h (by simp)
  · rw [if_neg h1] at h
    by_cases h2 : (parseEhdr (r.take 64)).e_ident.take 4 ≠ elf_magic
    · rw [if_pos h2] at h; exact absurd h (by simp)
    · rw [if_neg h2] at h
      by_cases h3 : (parseEhdr (r.take 64)).e_shentsize ≠ 64
      · rw [if_pos h3] at h; exact absurd h (by simp)
      · rw [if_neg h3] at h
        by_cases h4 : (parseEhdr (r.take 64)).e_phentsize ≠ 56
        · rw [if_pos h4] at h; exact absurd h (by simp)
        · rw [if_neg h4] at h
          cases hsh : readRecords r (parseEhdr (r.take 64)).e_shoff
              (parseEhdr (r.take 64)).e_shnum 64 with
          | none => rw [hsh] at h; exact absurd h (by simp)
          | some shb =>
            rw [hsh] at h
            cases hph : readRecords r (parseEhdr (r.take 64)).e_phoff
                (parseEhdr (r.take 64)).e_phnum 56 with
            | none => rw [hph] at h; exact absurd h (by simp)
            | some phb =>
              rw [hph] at h
              refine ⟨h1, shb, phb, rfl, rfl, ?_⟩
              injection h with h
              exact h.symm

theorem slice_infix (data : List Nat) (off n : Nat) :
    (data.drop off).take n <:+: data :=
  ⟨data.take off, (data.drop off).drop n, by
    rw [List.append_assoc, List.take_append_drop, List.take_append_drop]⟩

/-! ## Symbol-offset updates touch only the region -/

theorem upd_symtab_step_parts (e : elf_t) (i d : Nat) :
    (upd_symtab_step e i d).sections = e.sections ∧
    (upd_symtab_step e i d).header = e.header ∧
    (upd_symtab_step e i d).program_headers = e.program_headers := by
  unfold upd_symtab_step
  cases find_symtab_section e with
  | none => exact ⟨rfl, rfl, rfl⟩
  | some st => exact ⟨rfl, rfl, rfl⟩

theorem upd_rela_step_parts (e : elf_t) (name : List Nat) (a z d : Nat) :
    (upd_rela_step e name a z d).sections = e.sections ∧
    (upd_rela_step e name a z d).header = e.header ∧
    (upd_rela_step e name a z d).program_headers = e.program_headers := by
  unfold upd_rela_step
  cases get_section_by_name e name with
  | none => exact ⟨rfl, rfl, rfl⟩
  | some rs => exact ⟨rfl, rfl, rfl⟩

theorem update_symbols_offsets_parts (e : elf_t) (i d : Nat) :
    (update_symbols_offsets e i d).sections = e.sections ∧
    (update_symbols_offsets e i d).header = e.header ∧
    (update_symbols_offsets e i d).program_headers = e.program_headers := by
  unfold update_symbols_offsets
  cases e.sections[i]? with
  | none => exact ⟨rfl, rfl, rfl⟩
  | some sec =>
    obtain ⟨hs1, hh1, hp1⟩ := upd_symtab_step_parts e i d
    obtain ⟨hs2, hh2, hp2⟩ := upd_rela_step_parts (upd_symtab_step e i d)
      rela_dyn_name sec.sh_addr sec.sh_size d
    obtain ⟨hs3, hh3, hp3⟩ := upd_rela_step_parts
      (upd_rela_step (upd_symtab_step e i d) rela_dyn_name sec.sh_addr sec.sh_size d)
      rela_plt_name sec.sh_addr sec.sh_size d
    exact ⟨hs3.trans (hs2.trans hs1), hh3.trans (hh2.trans hh1), hp3.trans (hp2.trans hp1)⟩

theorem foldl_update_parts (l : List Nat) (d : Nat) (e : elf_t) :
    (l.foldl (fun acc i => update_symbols_offsets acc i d) e).sections = e.sections ∧
    (l.foldl (fun acc i => update_symbols_offsets acc i d) e).header = e.header ∧
    (l.foldl (fun acc i => update_symbols_offsets acc i d) e).program_headers =
      e.program_headers := by
  induction l generalizing e with
  | nil => exact ⟨rfl, rfl, rfl⟩
  | cons i t ih =>
    simp only [List.foldl_cons]
    obtain ⟨hs, hh, hp⟩ := ih (update_symbols_offsets e i d)
    obtain ⟨hs1, hh1, hp1⟩ := update_symbols_offsets_parts e i d
    exact ⟨hs.trans hs1, hh.trans hh1, hp.trans hp1⟩

theorem refresh_offsets_parts (e : elf_t) (o d : Nat) :
    (refresh_offsets e o d).sections = e.sections ∧
    (refresh_offsets e o d).header = e.header ∧
    (refresh_offsets e o d).program_headers = e.program_headers :=
  foldl_update_parts (stale_indices e o) d e

/-! ## Claim C1 -/

/-- C1: for every parsed Elf and after every public mutation
(`add_section`, `remove_section`, `add_program_header`,
`remove_program_header`), `e_shnum` equals the number of sections and
`e_phnum` equals the number of program headers. -/
theorem elf_counts_invariant :
    (∀ ty r e, create_elf ty r = Except.ok e → counts_ok e) ∧
    (∀ e s, counts_ok e → counts_ok (add_section e s).2) ∧
    (∀ e i, counts_ok e → counts_ok (remove_section e i).2) ∧
    (∀ e p, counts_ok e → counts_ok (add_program_header e p).2) ∧
    (∀ e i, counts_ok e → counts_ok (remove_program_header e i).2) := by
  refine ⟨?_, ?_, ?_, ?_, ?_⟩
  · intro ty r e h
    obtain ⟨h1, shb, phb, hsh, hph, he⟩ := create_elf_ok_inv ty r e h
    subst he
    constructor
    · show (parseEhdr (r.take 64)).e_shnum = (shb.map parseShdr).length
      rw [List.length_map, readRecords_length r _ _ 64 shb hsh]
    · show (parseEhdr (r.take 64)).e_phnum = (phb.map parsePhdr).length
      rw [List.length_map, readRecords_length r _ _ 56 phb hph]
  · intro e s h
    obtain ⟨h1, h2⟩ := h
    unfold add_section counts_ok
    dsimp only
    obtain ⟨hs, hh, hp⟩ := refresh_offsets_parts
      { e with sections := e.sections ++ [s],
               header := { e.header with e_shnum := e.header.e_shnum + 1 } }
      s.sh_offset s.sh_size
    rw [hs, hh, hp]
    dsimp only
    refine ⟨?_, h2⟩
    rw [List.length_append, h1]
    rfl
  · intro e i h
    obtain ⟨h1, h2⟩ := h
    unfold remove_section
    by_cases hg : i = e.header.e_shstrndx
    · rw [if_pos hg]; exact ⟨h1, h2⟩
    · rw [if_neg hg]
      cases hgi : e.sections[i]? with
      | none => exact ⟨h1, h2⟩
      | some s =>
        unfold counts_ok
        dsimp only
        obtain ⟨hs, hh, hp⟩ := refresh_offsets_parts
          { e with sections := e.sections.eraseIdx i,
                   header := { e.header with
                     e_shnum := e.header.e_shnum - 1,
                     e_shstrndx := if i < e.header.e_shstrndx then
                         e.header.e_shstrndx - 1 else e.header.e_shstrndx } }
          s.sh_offset ((2 ^ 64 - s.sh_size) % 2 ^ 64)
        rw [hs, hh, hp]
        dsimp only
        have hilt : i < e.sections.length := by
          by_contra hge
          rw [List.getElem?_eq_none (by omega)] at hgi
          exact Option.noConfusion hgi
        refine ⟨?_, h2⟩
        rw [List.length_eraseIdx_of_lt hilt]
        omega
  · intro e p h
    obtain ⟨h1, h2⟩ := h
    unfold add_program_header counts_ok
    dsimp only
    refine ⟨h1, ?_⟩
    rw [List.length_append, h2]
    rfl
  · intro e i h
    obtain ⟨h1, h2⟩ := h
    unfold remove_program_header
    cases hgi : e.program_headers[i]? with
    | none => exact ⟨h1, h2⟩
    | some p =>
      unfold counts_ok
      dsimp only
      have hilt : i < e.program_headers.length := by
        by_contra hge
        rw [List.getElem?_eq_none (by omega)] at hgi
        exact Option.noConfusion hgi
      refine ⟨h1, ?_⟩
      rw [List.length_eraseIdx_of_lt hilt]
      omega

/-- Witness for C1: the Elf parsed from the concrete region `W1` satisfies
the count invariants. -/
theorem elf_counts_invariant_witness : counts_ok elfW :=
  elf_counts_invariant.1 [] W1 elfW (by decide)

/-! ## Claim C2 -/

/-- C2: for every region that `create_elf` parses successfully, writing
the file header, every section header and every program header back to
their fixed-size records reproduces the input bytes exactly. -/
theorem elf_parse_serialize_roundtrip (ty r : List Nat) (e : elf_t)
    (hb : ∀ x ∈ r, x < 256) (h : create_elf ty r = Except.ok e) :
    serialize_elf e = r := by
  obtain ⟨h1, shb, phb, hsh, hph, he⟩ := create_elf_ok_inv ty r e h
  subst he
  unfold serialize_elf
  dsimp only
  have hlen64 : (r.take 64).length = 64 := by
    simp only [List.length_take]; omega
  have hb64 : ∀ x ∈ r.take 64, x < 256 := fun x hx => hb x (List.take_subset 64 r hx)
  rw [serializeEhdr_parseEhdr (r.take 64) hb64 hlen64, write_back_take r 64 (by omega)]
  rw [List.map_map]
  have hsecs : shb.map (serializeShdr ∘ parseShdr) = shb := by
    apply map_id_of_eq
    intro rec hrec
    obtain ⟨hrl, hrm⟩ := readRecords_mem r _ _ 64 shb hsh rec hrec
    exact serializeShdr_parseShdr rec (fun x hx => hb x (hrm x hx)) hrl
  rw [hsecs, writeRecords_readRecords r _ _ 64 shb hsh]
  rw [List.map_map]
  have hphs : phb.map (serializePhdr ∘ parsePhdr) = phb := by
    apply map_id_of_eq
    intro rec hrec
    obtain ⟨hrl, hrm⟩ := readRecords_mem r _ _ 56 phb hph rec hrec
    exact serializePhdr_parsePhdr rec (fun x hx => hb x (hrm x hx)) hrl
  rw [hphs, writeRecords_readRecords r _ _ 56 phb hph]

/-- Witness for C2: the concrete region `W1` round-trips byte-for-byte. -/
theorem elf_parse_serialize_roundtrip_witness : serialize_elf elfW = W1 :=
  elf_parse_serialize_roundtrip [] W1 elfW (by decide) (by decide)

/-! ## Claim C6 -/

/-- C6: a region whose first four identification bytes are not `\x7fELF`
makes `create_elf` fail with `InvalidFormat`, and no parse-time failure
ever yields an Elf object. -/
theorem create_elf_bad_magic :
    (∀ ty r, r.take 4 ≠ elf_magic →
      create_elf ty r = Except.error elf_error.InvalidFormat) ∧
    (∀ ty r err, create_elf ty r = Except.error err →
      ∀ e, ¬ create_elf ty r = Except.ok e) := by
  constructor
  · intro ty r hm
    unfold create_elf
    by_cases h1 : r.length < 64
    · rw [if_pos h1]
    · rw [if_neg h1]
      have hident : (parseEhdr (r.take 64)).e_ident.take 4 = r.take 4 := by
        show ((r.take 64).take 16).take 4 = r.take 4
        rw [List.take_take, List.take_take]
        norm_num
      rw [if_pos (by rw [hident]; exact hm)]
  · intro ty r err h e he
    rw [h] at he
    exact Except.noConfusion he

/-- Witness for C6: a four-byte region with wrong magic. -/
theorem create_elf_bad_magic_witness :
    create_elf [] [1, 2, 3, 4] = Except.error elf_error.InvalidFormat :=
  create_elf_bad_magic.1 [] [1, 2, 3, 4] (by decide)

/-! ## Claim C7 -/

/-- C7: mutations that would violate an invariant return `FAILED` with the
Elf object (header, section and program-header sequences, region bytes)
unchanged — removing the cached `.shstrtab`, or removing an unknown
section or program header. -/
theorem elf_mutation_guard :
    (∀ e, remove_section e e.header.e_shstrndx = (status_t.FAILED, e)) ∧
    (∀ e i, e.sections[i]? = none → remove_section e i = (status_t.FAILED, e)) ∧
    (∀ e i, e.program_headers[i]? = none →
      remove_program_header e i = (status_t.FAILED, e)) := by
  refine ⟨?_, ?_, ?_⟩
  · intro e
    unfold remove_section
    rw [if_pos rfl]
  · intro e i h
    unfold remove_section
    by_cases hg : i = e.header.e_shstrndx
    · rw [if_pos hg]
    · rw [if_neg hg, h]
  · intro e i h
    unfold remove_program_header
    rw [h]

/-- Witness for C7: removing an out-of-range section of the parsed `W1`
Elf fails and leaves it unchanged. -/
theorem elf_mutation_guard_witness :
    remove_section elfW 99 = (status_t.FAILED, elfW) :=
  elf_mutation_guard.2.1 elfW 99 (by decide)

/-! ## Claim C3 -/

/-- C3: whenever `get_function_offset` resolves a name to the symbol
`sym` and `get_function_chunk` returns a chunk, that chunk is the
sub-chunk of the section whose virtual range `[sh_addr, sh_addr+sh_size)`
contains the address, starting at the intra-section offset, of length
`st_size`, and its bytes lie inside that section's data chunk. -/
theorem get_function_chunk_spec (e : elf_t) (name : List Nat) (sym : Elf64_Sym)
    (sec : Elf64_Shdr) (c : List Nat)
    (hsym : find_function_sym e name = some sym)
    (hsec : find_section_containing e sym.st_value = some sec)
    (hc : get_function_chunk e name = some c) :
    get_function_offset e name = some sym.st_value ∧
    sec.sh_addr ≤ sym.st_value ∧
    sym.st_value < sec.sh_addr + sec.sh_size ∧
    c.length = sym.st_size ∧
    c = ((get_section_data_chunk e sec).drop (sym.st_value - sec.sh_addr)).take sym.st_size ∧
    c <:+: get_section_data_chunk e sec := by
  have hrange := List.find?_some hsec
  rw [Bool.and_eq_true, decide_eq_true_eq, decide_eq_true_eq] at hrange
  unfold get_function_chunk at hc
  rw [hsym] at hc
  dsimp only at hc
  rw [hsec] at hc
  dsimp only at hc
  unfold chunk_slice at hc
  by_cases hb : sym.st_value - sec.sh_addr + sym.st_size ≤ (get_section_data_chunk e sec).length
  · rw [if_pos hb] at hc
    simp only [Option.some_inj] at hc
    subst hc
    refine ⟨?_, hrange.1, hrange.2, ?_, rfl, slice_infix _ _ _⟩
    · unfold get_function_offset
      rw [hsym]
      rfl
    · simp only [List.length_take, List.length_drop]
      omega
  · rw [if_neg hb] at hc
    exact absurd hc (by simp)

/-- Witness for C3: resolving `main` inside `elfFn` yields the 4-byte
sub-chunk of `.text`. -/
theorem get_function_chunk_spec_witness :
    get_function_offset elfFn nameMain = some symMain.st_value ∧
    secText.sh_addr ≤ symMain.st_value ∧
    symMain.st_value < secText.sh_addr + secText.sh_size ∧
    chunkMain.length = symMain.st_size ∧
    chunkMain = ((get_section_data_chunk elfFn secText).drop
      (symMain.st_value - secText.sh_addr)).take symMain.st_size ∧
    chunkMain <:+: get_section_data_chunk elfFn secText :=
  get_function_chunk_spec elfFn nameMain symMain secText chunkMain
    (by decide) (by decide) (by decide)

/-! ## Claim C5 (corrected: empty-name sections are skipped, so the
round trip holds for sections with a nonempty unique resolved name) -/

/-- C5 (amended): for every section whose resolved name is nonempty and
unique among the Elf's sections, `get_section_by_name (get_section_name
s)` returns `s` itself; and in general the first section in insertion
order whose nonempty name matches is the one returned. -/
theorem get_section_by_name_unique_amended :
    (∀ e s, s ∈ e.sections → get_section_name e s ≠ [] →
      (∀ t ∈ e.sections, get_section_name e t = get_section_name e s → t = s) →
      get_section_by_name e (get_section_name e s) = some s) ∧
    (∀ (e : elf_t) (name : List Nat) (i : Nat) (s : Elf64_Shdr),
      e.sections[i]? = some s → section_name_matches e name s = true →
      (∀ (j : Nat) (t : Elf64_Shdr), j < i → e.sections[j]? = some t →
        section_name_matches e name t = false) →
      get_section_by_name e name = some s) := by
  constructor
  · intro e s hs hne huniq
    unfold get_section_by_name
    apply find?_of_unique _ _ s hs
    · unfold section_name_matches
      rw [Bool.and_eq_true]
      constructor
      · rw [Bool.not_eq_true']
        rw [← Bool.not_eq_true]
        intro hemp
        exact hne (List.isEmpty_iff.mp hemp)
      · exact beq_self_eq_true _
    · intro b hb hpb
      unfold section_name_matches at hpb
      rw [Bool.and_eq_true, beq_iff_eq] at hpb
      exact huniq b hb hpb.2
  · intro e name i s hi hp hprev
    unfold get_section_by_name
    exact find?_first_index _ _ i s hi hp fun j b hj hb => hprev j b hj hb

/-- Witness for C5 (amended): the uniquely named `.text` section of
`elfFn` round-trips through name lookup. -/
theorem get_section_by_name_unique_witness :
    get_section_by_name elfFn (get_section_name elfFn secText) = some secText :=
  get_section_by_name_unique_amended.1 elfFn secText (by decide) (by decide) (by decide)

/-- Counterexample to C5 as stated: `elf5` has exactly one section, so
its resolved name (the empty string) is unique, yet
`get_section_by_name (get_section_name s)` returns `none`, not `s`. -/
theorem get_section_by_name_unique_counterexample :
    elf5.sections = [elf5_s0] ∧
    get_section_name elf5 elf5_s0 = [] ∧
    get_section_by_name elf5 (get_section_name elf5 elf5_s0) = none := by
  decide

/-! ## Claim C8 -/

/-- C8: when no `STT_FUNC` symbol of `.symtab` has the requested name
(in particular when `.symtab` is absent), `get_function_offset` returns
the absent result; a lookup miss, not an error. -/
theorem get_function_offset_notfound (e : elf_t) (name : List Nat)
    (h : find_symtab_section e = none ∨
      ∀ sym ∈ symtab_entries e, ELF64_ST_TYPE sym.st_info = STT_FUNC →
        symbol_name e sym ≠ name) :
    get_function_offset e name = none := by
  have hnone : find_function_sym e name = none := by
    unfold find_function_sym
    rw [List.find?_eq_none]
    intro sym hsym
    cases h with
    | inl habs =>
      unfold symtab_entries at hsym
      rw [habs] at hsym
      exact absurd hsym (List.not_mem_nil sym)
    | inr hno =>
      intro hp
      rw [Bool.and_eq_true, beq_iff_eq, beq_iff_eq] at hp
      exact hno sym hsym hp.1 hp.2
  unfold get_function_offset
  rw [hnone]
  rfl

/-- Witness for C8: `get_function_offset("nope")` on `elfFn` is the
absent result. -/
theorem get_function_offset_notfound_witness :
    get_function_offset elfFn nameNope = none :=
  get_function_offset_notfound elfFn nameNope (Or.inr (by decide))

/-! ## Claim C10 -/

/-- C10: the C interface returns a bare `Elf64_Addr`, so an absent
function name is indistinguishable from a function resolved at the
sentinel address 0. -/
theorem get_function_offset_sentinel (e1 e2 : elf_t) (name : List Nat)
    (h1 : get_function_offset e1 name = none)
    (h2 : get_function_offset e2 name = some 0) :
    get_function_offset_iface e1 name = get_function_offset_iface e2 name ∧
    get_function_offset_iface e1 name = 0 := by
  unfold get_function_offset_iface
  rw [h1, h2]
  exact ⟨rfl, rfl⟩

/-- Witness for C10: `elfEmpty` (no `.symtab`) and `elfZero` (whose
`main` resolves to 0) are indistinguishable through the bare-address
interface. -/
theorem get_function_offset_sentinel_witness :
    get_function_offset_iface elfEmpty nameMain = get_function_offset_iface elfZero nameMain ∧
    get_function_offset_iface elfEmpty nameMain = 0 :=
  get_function_offset_sentinel elfEmpty elfZero nameMain (by decide) (by decide)

/-! ## Claim C4 -/

/-- C4: `update_symbols_offsets(s, delta)` adds `delta` to `st_value` of
exactly the `.symtab` entries whose `st_shndx` equals the section's
index, adds `delta` to `r_offset` of exactly the relocation entries whose
`r_offset` lies within the section's virtual range, additionally adding
`delta` to `r_addend` for `R_X86_64_RELATIVE` entries; in particular, on
the concrete Elf whose `.rela.plt` holds one entry at `r_offset =
0x401020` inside `.text`, applying delta `+16` to `.text` makes that
`r_offset` equal `0x401030`. -/
theorem update_symbols_offsets_spec :
    (∀ secIdx delta symtab, update_symtab_entries secIdx delta symtab =
      symtab.map fun s => if s.st_shndx = secIdx then
        { s with st_value := (s.st_value + delta) % 2 ^ 64 } else s) ∧
    (∀ secAddr secSize delta relas, update_rela_entries secAddr secSize delta relas =
      relas.map fun r => if secAddr ≤ r.r_offset ∧ r.r_offset < secAddr + secSize then
        { r with r_offset := (r.r_offset + delta) % 2 ^ 64,
                 r_addend := if ELF64_R_TYPE r.r_info = R_X86_64_RELATIVE then
                     (r.r_addend + delta) % 2 ^ 64 else r.r_addend }
      else r) ∧
    rela_entries (update_symbols_offsets elfC4 2 16) rela_plt_name =
      [{ r_offset := 0x401030, r_info := 7, r_addend := 0 }] := by
  refine ⟨?_, ?_, by decide⟩
  · intro secIdx delta symtab
    induction symtab with
    | nil => rfl
    | cons s rest ih => simp only [update_symtab_entries, List.map_cons, ih]
  · intro secAddr secSize delta relas
    induction relas with
    | nil => rfl
    | cons r rest ih => simp only [update_rela_entries, List.map_cons, ih]

/-! ## Claim C9 (corrected: the trusted raw constructor `chain_create`
stores its arguments as given, so the invariant holds for it only when
the arguments are consistent) -/

theorem insn_length_pos (b len : Nat) (h : insn_length b = some len) : 0 < len := by
  unfold insn_length at h
  by_cases hb : b = 0x90 ∨ b = 0xc3
  · rw [if_pos hb] at h
    simp only [Option.some_inj] at h
    omega
  · rw [if_neg hb] at h
    exact absurd h (by simp)

theorem decode_insns_fuel_spec (fuel : Nat) :
    ∀ addr bytes insns, decode_insns_fuel fuel addr bytes = some insns →
      sum_insn_lengths insns = bytes.length ∧
      List.Chain' (· < ·) (insn_addrs insns) ∧
      (insns = [] ∨ (insn_addrs insns).head? = some addr) := by
  induction fuel with
  | zero =>
    intro addr bytes insns h
    cases bytes with
    | nil =>
      simp only [decode_insns_fuel, Option.some_inj] at h
      rw [← h]
      exact ⟨rfl, List.chain'_nil, Or.inl rfl⟩
    | cons b rest =>
      simp only [decode_insns_fuel] at h
      exact absurd h (by simp)
  | succ fuel ih =>
    intro addr bytes insns h
    cases bytes with
    | nil =>
      simp only [decode_insns_fuel, Option.some_inj] at h
      rw [← h]
      exact ⟨rfl, List.chain'_nil, Or.inl rfl⟩
    | cons b rest =>
      simp only [decode_insns_fuel] at h
      cases hlen : insn_length b with
      | none => rw [hlen] at h; exact absurd h (by simp)
      | some len =>
        rw [hlen] at h
        dsimp only at h
        cases hrec : decode_insns_fuel fuel (addr + len) (rest.drop (len - 1)) with
        | none => rw [hrec] at h; exact absurd h (by simp)
        | some insns2 =>
          rw [hrec] at h
          dsimp only at h
          simp only [Option.some_inj] at h
          have hpos : 0 < len := insn_length_pos b len hlen
          obtain ⟨ihs, ihc, ihh⟩ := ih (addr + len) (rest.drop (len - 1)) insns2 hrec
          subst h
          refine ⟨?_, ?_, Or.inr rfl⟩
          · simp only [sum_insn_lengths, List.map_cons, List.sum_cons]
            simp only [sum_insn_lengths] at ihs
            simp only [List.length_cons, List.length_take]
            simp only [List.length_drop] at ihs
            omega
          · simp only [insn_addrs, List.map_cons]
            rw [List.chain'_cons']
            refine ⟨?_, ?_⟩
            · intro a ha
              cases ihh with
              | inl hnil =>
                rw [hnil] at ha
                simp at ha
              | inr hh =>
                simp only [insn_addrs] at hh
                rw [hh] at ha
                have haa : addr + len = a := by simpa using ha
                omega
            · simpa [insn_addrs] using ihc

theorem decode_insns_spec (addr : Nat) (bytes : List Nat) (insns : List instruction_t)
    (h : decode_insns addr bytes = some insns) :
    sum_insn_lengths insns = bytes.length ∧
    List.Chain' (· < ·) (insn_addrs insns) ∧
    (insns = [] ∨ (insn_addrs insns).head? = some addr) :=
  decode_insns_fuel_spec bytes.length addr bytes insns h

/-- C9 (amended): every chain produced by `chain_create_from_string`
satisfies the chain invariant; a chain produced by
`chain_create_from_insn` satisfies it provided the given instructions are
strictly-increasingly addressed starting at the chain address; and a
chain produced by the trusted raw constructor `chain_create` satisfies it
provided its arguments are consistent. -/
theorem chain_invariant_amended :
    (∀ addr bytes c, chain_create_from_string addr bytes = some c → chain_inv c) ∧
    (∀ addr insns, List.Chain' (· < ·) (insn_addrs insns) →
      (insns = [] ∨ (insn_addrs insns).head? = some addr) →
      chain_inv (chain_create_from_insn addr insns)) ∧
    (∀ addr str chunk insns,
      sum_insn_lengths insns = chunk.length →
      List.Chain' (· < ·) (insn_addrs insns) →
      (insns = [] ∨ (insn_addrs insns).head? = some addr) →
      chain_inv (chain_create addr str chunk insns)) := by
  refine ⟨?_, ?_, ?_⟩
  · intro addr bytes c h
    unfold chain_create_from_string at h
    cases hd : decode_insns addr bytes with
    | none => rw [hd] at h; exact absurd h (by simp)
    | some insns =>
      rw [hd] at h
      simp only [Option.map_some', Option.some_inj] at h
      obtain ⟨hs, hc, hh⟩ := decode_insns_spec addr bytes insns hd
      rw [← h]
      exact ⟨hs, hc, hh⟩
  · intro addr insns hchain hhead
    refine ⟨?_, hchain, hhead⟩
    show sum_insn_lengths insns = ((insns.map fun i => i.bytes).flatten).length
    rw [List.length_flatten, List.map_map]
    rfl
  · intro addr str chunk insns h1 h2 h3
    exact ⟨h1, h2, h3⟩

/-- Witness for C9 (amended): the chain decoded from `nop nop ret` at
`0x400000` satisfies the invariant. -/
theorem chain_invariant_amended_witness : chain_inv chainS6 :=
  chain_invariant_amended.1 0x400000 [0x90, 0x90, 0xc3] chainS6 (by decide)

/-- Counterexample to C9 as stated: the trusted raw constructor
`chain_create` accepts an empty chunk together with a nonempty
instruction list, and `chain_create_from_insn` accepts pre-decoded
instructions whose addresses do not start at the chain address; each
produces a chain violating the invariant. -/
theorem chain_invariant_counterexample :
    ¬ chain_inv bad_chain ∧ ¬ chain_inv bad_insn_chain := by
  constructor
  · intro h
    exact absurd h.1 (by decide)
  · intro h
    exact absurd h.2.2 (by decide)

end Nrop
